import Mathlib

/-!
# Verified embedding of `src/lib/merkletree.js`

A shallow embedding of the fixed-depth Merkle-tree engine of the
`witness-eddsa-merkletree` repository, together with theorems settling the
specification's claims about it.

Conventions of the embedding:

* A JavaScript `bigint` leaf/hash value is an arbitrary-precision `Nat`
  (`Element`).  The external Poseidon-based `hashLeaves(left, right)`
  collaborator is an abstract parameter `H : Nat → Nat → Nat`; every
  definition and theorem is parametric in it.
* A JavaScript value that may be `undefined` is an `Option`: a proof-node
  hash read outside of the array bounds is `none`, and a computation whose
  JavaScript original throws (e.g. `BigInt(undefined)` inside
  `hashLeaves`) returns `none`.
* The source mutates arrays in place (`ensureEven` pushes into the caller's
  array, `padTree` pushes into stored layers).  The embedding computes the
  final contents of `tree.layers` directly: each stored layer is the array
  as it stands after all in-place pushes.  In particular layer 0 of the
  built tree is the caller's `leaves` array after the call (they are the
  same object in the source).
-/

/-- Elements are JavaScript bigints: arbitrary-precision naturals. -/
abbrev Element := Nat

/-- One layer of the tree (`Array<bigint>` in the source). -/
abbrev Layer := List Element

/-- `HashDirection.LEFT` from the source. -/
def HashDirection.LEFT : Nat := 0

/-- `HashDirection.RIGHT` from the source. -/
def HashDirection.RIGHT : Nat := 1

/-- The `TREELEVELS` constant of the source: fixed tree depth 20. -/
def TREELEVELS : Nat := 20

/-- One entry of a `MerkleProof`: `{hash, direction}`.  The hash is an
`Option` because the source can store `undefined` there (an out-of-bounds
sibling read). -/
structure ProofNode where
  hash : Option Element
  direction : Nat
deriving DecidableEq

/-- `ensureEven` from the source: duplicate the last element if the layer
has odd length.  (In the source this pushes into the caller's array; the
embedding returns the post-push contents.) -/
def ensureEven (leaves : List Element) : List Element :=
  if leaves.length % 2 ≠ 0 then leaves ++ [leaves.getLastD 0] else leaves

/-- The pair-hashing loop of `generateMerkleRoot`:
`for (i = 0; i < leaves.length; i += 2) push(hashLeaves(leaves[i], leaves[i+1]))`.
It is only ever run on a layer that `ensureEven` has just made even. -/
def hashPairs (H : Nat → Nat → Nat) : List Element → List Element
  | a :: b :: rest => H a b :: hashPairs H rest
  | _ => []

/-- `generateMerkleRoot` from the source, rendered as the list of layers it
leaves in `tree.layers` (the returned root array is the last layer).  Layer 0
is the input after `ensureEven`'s in-place push; each recursive call evens the
layer it was handed before pairing it, so every stored non-final layer is
even; the recursion stops when a combined layer has a single element.  `fuel`
is the structural bound on the recursion depth: `generateMerkleRoot` below
instantiates it with `leaves.length`, which the length lemmas show is enough. -/
def generateMerkleRootAux (H : Nat → Nat → Nat) (fuel : Nat) (leaves : List Element) :
    List Layer :=
  match fuel with
  | 0 => [leaves]
  | fuel + 1 =>
    if leaves.length = 0 then [leaves]
    else if (hashPairs H (ensureEven leaves)).length = 1 then
      [ensureEven leaves, hashPairs H (ensureEven leaves)]
    else ensureEven leaves :: generateMerkleRootAux H fuel (hashPairs H (ensureEven leaves))

/-- The layers `generateMerkleRoot(leaves, tree)` leaves in `tree.layers`. -/
def generateMerkleRoot (H : Nat → Nat → Nat) (leaves : List Element) : List Layer :=
  generateMerkleRootAux H leaves.length leaves

/-- The body of `padTree`'s loop
`for (i = layers.length - 1; i < TREELEVELS - 1; i++)`.  Since every
iteration appends exactly one layer, `i` is always `layers.length - 1` at the
loop head, so the loop is `while (layers.length < TREELEVELS)`.  Each
iteration reads `lastRoot = layers[i][0]` (reading `[0]` of an empty layer
yields `undefined` and the subsequent `hashLeaves` throws: `none`), pushes
`lastRoot` into the last layer, and appends the new layer
`[hashLeaves(lastRoot, lastRoot)]`.  `fuel` bounds the iteration count;
`TREELEVELS` is always enough because each iteration grows the layer count. -/
def padTreeLoop (H : Nat → Nat → Nat) (fuel : Nat) (layers : List Layer) :
    Option (List Layer) :=
  match fuel with
  | 0 => some layers
  | fuel + 1 =>
    if layers.length < TREELEVELS then
      match (layers.getLastD []).head? with
      | none => none
      | some lastRoot =>
          padTreeLoop H fuel
            (layers.dropLast ++ [layers.getLastD [] ++ [lastRoot], [H lastRoot lastRoot]])
    else some layers

/-- `padTree` from the source: run the padding loop, then return the tree
(its layers) together with `root = layers[layers.length - 1][0]`. -/
def padTree (H : Nat → Nat → Nat) (layers : List Layer) :
    Option (List Layer × Element) :=
  match padTreeLoop H TREELEVELS layers with
  | none => none
  | some ls =>
    match (ls.getLastD []).head? with
    | none => none
    | some root => some (ls, root)

/-- `generateMerkleTree` from the source: seed `tree.layers` with the caller's
`leaves` array, run `generateMerkleRoot`, then `padTree`. -/
def generateMerkleTree (H : Nat → Nat → Nat) (leaves : List Element) :
    Option (List Layer × Element) :=
  padTree H (generateMerkleRoot H leaves)

/-- JavaScript `Array.prototype.findIndex(h => h === leaf)` as an
`Option Nat`: index of the first occurrence. -/
def findIndexNat (x : Element) : List Element → Option Nat
  | [] => none
  | a :: rest => if a = x then some 0 else (findIndexNat x rest).map (· + 1)

/-- `findIndex` with the JavaScript `-1`-for-missing convention. -/
def jsFindIndex (x : Element) (l : List Element) : Int :=
  match findIndexNat x l with
  | some i => (i : Int)
  | none => -1

/-- JavaScript array indexing with a possibly negative index:
`a[i]` is `undefined` for `i < 0` or `i ≥ a.length`. -/
def getAtInt (l : List Element) (i : Int) : Option Element :=
  if i < 0 then none else l[i.toNat]?

/-- `getLeafNodeDirectionInMerkleTree` from the source: parity of the leaf's
`findIndex` in layer 0 (an absent leaf gives index `-1`, whose JavaScript
remainder `-1 % 2 = -1` is nonzero, hence `RIGHT`). -/
def getLeafNodeDirectionInMerkleTree (leaf : Element) (layers : List Layer) : Nat :=
  if jsFindIndex leaf (layers.headD []) % 2 = 0 then HashDirection.LEFT
  else HashDirection.RIGHT

/-- The sibling-collecting loop of `generateMerkleProof`:
`for (level = 0; level < tree.layers.length - 1; level++)`.  The running
index is an `Int` because the source's `findIndex` can return `-1`, which
then flows through `hashIndex % 2`, `hashIndex ± 1` and
`Math.floor(hashIndex / 2)` (floored division: `Int.fdiv`). -/
def siblingPath : List Layer → Int → List ProofNode
  | [], _ => []
  | [_], _ => []
  | l :: next :: rest, hashIndex =>
    { hash := getAtInt l (if hashIndex % 2 = 0 then hashIndex + 1 else hashIndex - 1),
      direction := if hashIndex % 2 = 0 then HashDirection.RIGHT else HashDirection.LEFT } ::
      siblingPath (next :: rest) (hashIndex.fdiv 2)

/-- `generateMerkleProof` from the source.  `!leaf` is true for the bigint
`0n`, so a zero leaf (or empty leaves) returns `null` (`none`).  If no cached
tree is passed, the tree is built from the leaves; the proof is the leaf
entry followed by one sibling entry per non-final layer. -/
def generateMerkleProof (H : Nat → Nat → Nat) (leaf : Element)
    (leaves : List Element) (cachedTree : Option (List Layer)) :
    Option (List ProofNode) :=
  if leaf = 0 ∨ leaves.isEmpty then none
  else
    match (match cachedTree with
           | some t => some t
           | none => (generateMerkleTree H leaves).map Prod.fst) with
    | none => none
    | some layers =>
        some ({ hash := some leaf,
                direction := getLeafNodeDirectionInMerkleTree leaf layers } ::
              siblingPath layers (jsFindIndex leaf (layers.headD [])))

/-- The folding loop of `getMerkleRootFromMerkleProof`, with the accumulator
threaded explicitly.  An `undefined` accumulator or entry hash makes
`hashLeaves` throw (`none`); a direction other than `RIGHT` takes the `else`
branch, exactly as `node.direction === HashDirection.RIGHT` does. -/
def foldNodesAcc (H : Nat → Nat → Nat) (acc : Option Element) :
    List ProofNode → Option Element
  | [] => acc
  | node :: rest =>
    match acc, node.hash with
    | some a, some h =>
        foldNodesAcc H
          (some (if node.direction = HashDirection.RIGHT then H a h else H h a)) rest
    | _, _ => none

/-- `getMerkleRootFromMerkleProof` from the source: start from
`merkleProof[0].hash` and fold the remaining entries (reading entry 0 of an
empty proof throws: `none`). -/
def getMerkleRootFromMerkleProof (H : Nat → Nat → Nat) :
    List ProofNode → Option Element
  | [] => none
  | first :: rest => foldNodesAcc H first.hash rest

/-- Replacing the direction stored in entry 0 of a proof (the tampering
operation claim C8 quantifies over). -/
def replaceLeafDirection (d : Nat) : List ProofNode → List ProofNode
  | [] => []
  | first :: rest => { first with direction := d } :: rest

/-- The deterministic stand-in hash used for concrete witnesses, in the
spirit of the specification's test stub. -/
def stubHash : Nat → Nat → Nat := fun a b => a + b

/-- The left fold described by claim C6, written from the claim's words:
start from `proof[0].hash` and, for each later entry in order, hash the
accumulator on the left for direction RIGHT and on the right for LEFT.
This is the refinement comparison definition for the verifier. -/
def specVerifierFold (H : Nat → Nat → Nat) (p : List ProofNode) : Element :=
  p.tail.foldl
    (fun acc node =>
      if node.direction = HashDirection.RIGHT then H acc (node.hash.getD 0)
      else H (node.hash.getD 0) acc)
    ((p.headD (ProofNode.mk none 0)).hash.getD 0)

/-! ## Facts about one hashing level -/

/-- Each pair-hashing pass halves the layer length (rounding down). -/
theorem hashPairs_length (H : Nat → Nat → Nat) :
    ∀ l : List Element, (hashPairs H l).length = l.length / 2
  | [] => by simp [hashPairs]
  | [_] => by simp [hashPairs]
  | _ :: _ :: rest => by
    simp only [hashPairs, List.length_cons, hashPairs_length H rest]
    omega

/-- Entry `t` of a pair-hashing pass combines entries `2t` and `2t+1`. -/
theorem hashPairs_getD (H : Nat → Nat → Nat) :
    ∀ (l : List Element) (t : Nat), t < l.length / 2 →
      (hashPairs H l).getD t 0 = H (l.getD (2 * t) 0) (l.getD (2 * t + 1) 0)
  | [], t, h => by simp at h
  | [_], t, h => by
    simp only [List.length_cons, List.length_nil] at h
    omega
  | a :: b :: rest, 0, _ => by simp [hashPairs]
  | a :: b :: rest, t + 1, h => by
    have ht : t < rest.length / 2 := by
      simp only [List.length_cons] at h; omega
    have h2 : 2 * (t + 1) = (2 * t + 1) + 1 := by omega
    have h3 : 2 * (t + 1) + 1 = ((2 * t + 1) + 1) + 1 := by omega
    simp only [hashPairs, List.getD_cons_succ, h2, h3]
    exact hashPairs_getD H rest t ht

/-- `ensureEven` adds one element exactly when the length is odd. -/
theorem ensureEven_length (l : List Element) :
    (ensureEven l).length = l.length + l.length % 2 := by
  unfold ensureEven
  split <;> simp_all

/-- The layer left by `ensureEven` has even length. -/
theorem ensureEven_even (l : List Element) : (ensureEven l).length % 2 = 0 := by
  rw [ensureEven_length]; omega

/-- `ensureEven` does not disturb the existing entries. -/
theorem ensureEven_getD (l : List Element) (i : Nat) (d : Element) (h : i < l.length) :
    (ensureEven l).getD i d = l.getD i d := by
  unfold ensureEven
  split
  · rw [List.getD_append _ _ _ _ h]
  · rfl

/-- Every element of the input still occurs after `ensureEven`. -/
theorem mem_ensureEven (l : List Element) (x : Element) (h : x ∈ l) : x ∈ ensureEven l := by
  unfold ensureEven
  split
  · exact List.mem_append_left _ h
  · exact h

/-- The layer produced by evening and then pair-hashing has length
`⌈length/2⌉`. -/
theorem hashPairs_ensureEven_length (H : Nat → Nat → Nat) (l : List Element) :
    (hashPairs H (ensureEven l)).length = (l.length + 1) / 2 := by
  rw [hashPairs_length, ensureEven_length]; omega

/-! ## Small list utilities -/

/-- `getLastD` of a nonempty list ignores the default. -/
theorem getLastD_irrel {α : Type} :
    ∀ (l : List α), l ≠ [] → ∀ d d', l.getLastD d = l.getLastD d'
  | [], h, _, _ => absurd rfl h
  | [_], _, _, _ => rfl
  | _ :: _ :: _, _, _, _ => by simp only [List.getLastD_cons]

/-- Peeling the head off a list of two or more elements keeps the last. -/
theorem getLastD_cons_ne {α : Type} (a : α) (bs : List α) (d : α) (h : bs ≠ []) :
    (a :: bs).getLastD d = bs.getLastD d := by
  cases bs with
  | nil => exact absurd rfl h
  | cons c cs => simp only [List.getLastD_cons]

/-! ## The stored-layer invariant -/

/-- The relation between one stored non-final layer and the next: the layer
is nonempty of even length, the next layer is wide enough, and each of the
first `length/2` entries of the next layer hashes an adjacent pair. -/
def LayerStep (H : Nat → Nat → Nat) (l next : Layer) : Prop :=
  l.length % 2 = 0 ∧ 0 < l.length ∧ l.length / 2 ≤ next.length ∧
    ∀ t, t < l.length / 2 → next.getD t 0 = H (l.getD (2 * t) 0) (l.getD (2 * t + 1) 0)

/-- The invariant of `tree.layers` after building and padding (for nonempty
input): consecutive layers are linked by `LayerStep` and the final layer
holds the single root. -/
inductive GoodLayers (H : Nat → Nat → Nat) : List Layer → Prop
  | last (l : Layer) : l.length = 1 → GoodLayers H [l]
  | step (l next : Layer) (rest : List Layer) :
      LayerStep H l next → GoodLayers H (next :: rest) → GoodLayers H (l :: next :: rest)

/-- A good layer list is nonempty. -/
theorem GoodLayers.ne_nil {H : Nat → Nat → Nat} {ls : List Layer}
    (h : GoodLayers H ls) : ls ≠ [] := by
  cases h <;> simp

/-- A good layer list ends in a singleton layer. -/
theorem GoodLayers.getLast_singleton {H : Nat → Nat → Nat} {ls : List Layer}
    (h : GoodLayers H ls) : ∃ r, ls.getLastD [] = [r] := by
  induction h with
  | last l hl =>
    obtain ⟨r, hr⟩ := List.length_eq_one.mp hl
    exact ⟨r, by simp [hr]⟩
  | step l next rest hs htail ih =>
    obtain ⟨r, hr⟩ := ih
    exact ⟨r, by rw [getLastD_cons_ne _ _ _ (by simp)]; exact hr⟩

/-- Prepending a layer that steps into the head of a good list. -/
theorem goodLayers_cons {H : Nat → Nat → Nat} {ls : List Layer} {l : Layer}
    (h : GoodLayers H ls) (hs : LayerStep H l (ls.headD [])) : GoodLayers H (l :: ls) := by
  cases h with
  | last l' hl' => exact GoodLayers.step _ _ _ (by simpa using hs) (GoodLayers.last l' hl')
  | step l' next' rest' hs' ht' =>
    exact GoodLayers.step _ _ _ (by simpa using hs) (GoodLayers.step _ _ _ hs' ht')

/-- `generateMerkleRoot` establishes the invariant: for nonempty input with
enough fuel, the stored layers are good, layer 0 is the evened input, and
there are at least two layers. -/
theorem generateMerkleRootAux_spec (H : Nat → Nat → Nat) :
    ∀ (fuel : Nat) (L : List Element), L ≠ [] → L.length ≤ fuel →
      GoodLayers H (generateMerkleRootAux H fuel L) ∧
      (generateMerkleRootAux H fuel L).headD [] = ensureEven L ∧
      2 ≤ (generateMerkleRootAux H fuel L).length := by
  intro fuel
  induction fuel with
  | zero =>
    intro L hL hlen
    rw [Nat.le_zero, List.length_eq_zero] at hlen
    exact absurd hlen hL
  | succ fuel ih =>
    intro L hL hlen
    have hL0 : ¬ L.length = 0 := by
      rw [List.length_eq_zero]; exact hL
    have hL1 : 1 ≤ L.length := by omega
    have hce : (hashPairs H (ensureEven L)).length = (L.length + 1) / 2 :=
      hashPairs_ensureEven_length H L
    have hstepL : ∀ next : Layer,
        (hashPairs H (ensureEven L)).length ≤ next.length →
        (∀ t, t < (hashPairs H (ensureEven L)).length →
          next.getD t 0 = (hashPairs H (ensureEven L)).getD t 0) →
        LayerStep H (ensureEven L) next := by
      intro next hlen2 hsame
      have hhalf : (ensureEven L).length / 2 = (hashPairs H (ensureEven L)).length :=
        (hashPairs_length H (ensureEven L)).symm
      refine ⟨ensureEven_even L, ?_, ?_, ?_⟩
      · rw [ensureEven_length]; omega
      · rw [hhalf]; exact hlen2
      · intro t ht
        rw [hhalf] at ht
        rw [hsame t ht]
        exact hashPairs_getD H (ensureEven L) t (by rw [hhalf]; exact ht)
    by_cases hc : (hashPairs H (ensureEven L)).length = 1
    · rw [generateMerkleRootAux, if_neg hL0, if_pos hc]
      refine ⟨?_, by simp, by simp⟩
      exact GoodLayers.step _ _ _
        (hstepL _ (by omega) (fun t ht => rfl)) (GoodLayers.last _ hc)
    · rw [generateMerkleRootAux, if_neg hL0, if_neg hc]
      have hc2 : 2 ≤ (hashPairs H (ensureEven L)).length := by omega
      have hL3 : 3 ≤ L.length := by omega
      have hfuel : (hashPairs H (ensureEven L)).length ≤ fuel := by omega
      have hne : hashPairs H (ensureEven L) ≠ [] := by
        rw [← List.length_pos]; omega
      obtain ⟨hG, hH, h2⟩ := ih (hashPairs H (ensureEven L)) hne hfuel
      refine ⟨?_, by simp, by simp; omega⟩
      refine goodLayers_cons hG (hstepL _ ?_ ?_)
      · rw [hH, ensureEven_length]; omega
      · intro t ht
        rw [hH]
        exact ensureEven_getD _ t 0 ht

/-- `ensureEven` is idempotent. -/
theorem ensureEven_idem (l : List Element) : ensureEven (ensureEven l) = ensureEven l := by
  have h := ensureEven_even l
  rw [ensureEven, if_neg (by omega)]

/-- The recursion fuel is irrelevant as long as it covers the layer
length. -/
theorem generateMerkleRootAux_fuel_irrel (H : Nat → Nat → Nat) :
    ∀ (fuel1 fuel2 : Nat) (L : List Element), L.length ≤ fuel1 → L.length ≤ fuel2 →
      generateMerkleRootAux H fuel1 L = generateMerkleRootAux H fuel2 L := by
  intro fuel1
  induction fuel1 with
  | zero =>
    intro fuel2 L h1 h2
    have hnil : L.length = 0 := by omega
    cases fuel2 with
    | zero => rfl
    | succ f2 => rw [generateMerkleRootAux, generateMerkleRootAux, if_pos hnil]
  | succ f1 ih =>
    intro fuel2 L h1 h2
    by_cases hnil : L.length = 0
    · cases fuel2 with
      | zero => rw [generateMerkleRootAux, generateMerkleRootAux, if_pos hnil]
      | succ f2 => rw [generateMerkleRootAux, generateMerkleRootAux, if_pos hnil, if_pos hnil]
    · cases fuel2 with
      | zero => omega
      | succ f2 =>
        have hce : (hashPairs H (ensureEven L)).length = (L.length + 1) / 2 :=
          hashPairs_ensureEven_length H L
        by_cases hc : (hashPairs H (ensureEven L)).length = 1
        · rw [generateMerkleRootAux, generateMerkleRootAux, if_neg hnil, if_neg hnil,
            if_pos hc, if_pos hc]
        · rw [generateMerkleRootAux, generateMerkleRootAux, if_neg hnil, if_neg hnil,
            if_neg hc, if_neg hc, ih f2 _ (by omega) (by omega)]

/-- Evening the leaves before building does not change the stored layers:
the first build step evens them anyway. -/
theorem generateMerkleRoot_ensureEven (H : Nat → Nat → Nat) (L : List Element)
    (hL : L ≠ []) :
    generateMerkleRoot H L = generateMerkleRoot H (ensureEven L) := by
  have hL0 : ¬ L.length = 0 := by
    rw [List.length_eq_zero]; exact hL
  have hE0 : ¬ (ensureEven L).length = 0 := by
    rw [ensureEven_length]; omega
  have hle : (ensureEven L).length = L.length + L.length % 2 := ensureEven_length L
  obtain ⟨m, hm⟩ : ∃ m, L.length = m + 1 := ⟨L.length - 1, by omega⟩
  obtain ⟨m', hm'⟩ : ∃ m', (ensureEven L).length = m' + 1 := ⟨(ensureEven L).length - 1, by omega⟩
  rw [generateMerkleRoot, generateMerkleRoot, hm, hm']
  rw [generateMerkleRootAux, generateMerkleRootAux, if_neg hL0, if_neg hE0]
  rw [ensureEven_idem]
  by_cases hc : (hashPairs H (ensureEven L)).length = 1
  · rw [if_pos hc, if_pos hc]
  · rw [if_neg hc, if_neg hc]
    have hce : (hashPairs H (ensureEven L)).length = (L.length + 1) / 2 :=
      hashPairs_ensureEven_length H L
    rw [generateMerkleRootAux_fuel_irrel H m m' _ (by omega) (by omega)]

/-- Depth upper bound: at most `2^k` leaves (with `k ≥ 1`) produce at most
`k + 1` natural layers. -/
theorem generateMerkleRootAux_length_le (H : Nat → Nat → Nat) :
    ∀ (fuel : Nat) (L : List Element) (k : Nat), 1 ≤ L.length → L.length ≤ 2 ^ k →
      1 ≤ k → L.length ≤ fuel → (generateMerkleRootAux H fuel L).length ≤ k + 1 := by
  intro fuel
  induction fuel with
  | zero => intro L k h1 _ _ h4; omega
  | succ fuel ih =>
    intro L k h1 h2 hk h4
    have hL0 : ¬ L.length = 0 := by omega
    have hce : (hashPairs H (ensureEven L)).length = (L.length + 1) / 2 :=
      hashPairs_ensureEven_length H L
    by_cases hc : (hashPairs H (ensureEven L)).length = 1
    · rw [generateMerkleRootAux, if_neg hL0, if_pos hc]
      simp
      omega
    · rw [generateMerkleRootAux, if_neg hL0, if_neg hc]
      have hk2 : 2 ≤ k := by
        by_contra hlt
        have hk1 : k = 1 := by omega
        subst hk1
        rw [pow_one] at h2
        omega
      have hpow : 2 ^ k = 2 * 2 ^ (k - 1) := by
        conv_lhs => rw [show k = (k - 1) + 1 by omega]
        rw [pow_succ]
        ring
      have hrec := ih (hashPairs H (ensureEven L)) (k - 1)
        (by omega) (by omega) (by omega) (by omega)
      simp only [List.length_cons]
      omega

/-- Depth lower bound: more than `2^k` leaves force more than `k + 1`
natural layers. -/
theorem generateMerkleRootAux_length_ge (H : Nat → Nat → Nat) :
    ∀ (fuel : Nat) (L : List Element) (k : Nat), 2 ^ k + 1 ≤ L.length →
      L.length ≤ fuel → k + 2 ≤ (generateMerkleRootAux H fuel L).length := by
  intro fuel
  induction fuel with
  | zero =>
    intro L k h1 h2
    have := Nat.one_le_two_pow (n := k)
    omega
  | succ fuel ih =>
    intro L k h1 h2
    have hp1 : 1 ≤ 2 ^ k := Nat.one_le_two_pow
    have hL0 : ¬ L.length = 0 := by omega
    have hne : L ≠ [] := by
      rw [← List.length_pos]; omega
    have hce : (hashPairs H (ensureEven L)).length = (L.length + 1) / 2 :=
      hashPairs_ensureEven_length H L
    cases k with
    | zero =>
      obtain ⟨_, _, hlen⟩ := generateMerkleRootAux_spec H (fuel + 1) L hne h2
      omega
    | succ k =>
      have hpow : 2 ^ (k + 1) = 2 * 2 ^ k := by
        rw [pow_succ]; ring
      have hc : ¬ (hashPairs H (ensureEven L)).length = 1 := by omega
      rw [generateMerkleRootAux, if_neg hL0, if_neg hc]
      have hrec := ih (hashPairs H (ensureEven L)) k (by omega) (by omega)
      simp only [List.length_cons]
      omega

/-- One `padTree` iteration preserves the invariant: widening the singleton
root layer `[r]` to `[r, r]` and appending `[H r r]`. -/
theorem goodLayers_padStep {H : Nat → Nat → Nat} {ls : List Layer} {r : Element}
    (h : GoodLayers H ls) (hlast : ls.getLastD [] = [r]) :
    GoodLayers H (ls.dropLast ++ [[r, r], [H r r]]) := by
  induction h with
  | last l hl =>
    have hlr : l = [r] := by simpa using hlast
    subst hlr
    simp only [List.dropLast_single, List.nil_append]
    refine GoodLayers.step _ _ _ ⟨by simp, by simp, by simp, ?_⟩ (GoodLayers.last _ (by simp))
    intro t ht
    simp only [List.length_cons, List.length_nil] at ht
    have ht0 : t = 0 := by omega
    subst ht0
    simp
  | step l next rest hs htail ih =>
    have hlast' : (next :: rest).getLastD [] = [r] := by
      rw [getLastD_cons_ne _ _ _ (by simp)] at hlast
      exact hlast
    have ihh := ih hlast'
    have hdl : (l :: next :: rest).dropLast = l :: (next :: rest).dropLast := rfl
    rw [hdl, List.cons_append]
    refine goodLayers_cons ihh ?_
    cases rest with
    | nil =>
      have hnr : next = [r] := by simpa using hlast'
      subst hnr
      obtain ⟨he, hp, hle, hpair⟩ := hs
      simp only [List.length_cons, List.length_nil] at hle
      refine ⟨he, hp, ?_, ?_⟩
      · simp only [List.dropLast_single, List.nil_append, List.headD_cons, List.length_cons,
          List.length_nil]
        omega
      · intro t ht
        have ht0 : t = 0 := by omega
        subst ht0
        have := hpair 0 ht
        simpa using this
    | cons b bs =>
      have hdl2 : (next :: b :: bs).dropLast = next :: (b :: bs).dropLast := rfl
      rw [hdl2, List.cons_append, List.headD_cons]
      exact hs

/-- The padding loop, with enough fuel, succeeds on a good layer list and
pads it to exactly `max length TREELEVELS` layers, preserving the invariant
and (when at least two layers exist) layer 0. -/
theorem padTreeLoop_spec {H : Nat → Nat → Nat} :
    ∀ (fuel : Nat) (ls : List Layer), GoodLayers H ls → TREELEVELS ≤ ls.length + fuel →
      ∃ ls', padTreeLoop H fuel ls = some ls' ∧ GoodLayers H ls' ∧
        ls'.length = max ls.length TREELEVELS ∧
        (2 ≤ ls.length → ls'.headD [] = ls.headD []) := by
  intro fuel
  induction fuel with
  | zero =>
    intro ls hg hlen
    refine ⟨ls, rfl, hg, ?_, fun _ => rfl⟩
    omega
  | succ fuel ih =>
    intro ls hg hlen
    have hpos : 0 < ls.length := List.length_pos.mpr hg.ne_nil
    by_cases hlt : ls.length < TREELEVELS
    · obtain ⟨r, hr⟩ := hg.getLast_singleton
      have hstep := goodLayers_padStep hg hr
      have hlen2 : (ls.dropLast ++ [[r, r], [H r r]]).length = ls.length + 1 := by
        simp [List.length_dropLast]
        omega
      obtain ⟨ls', hEq, hG, hL, hHd⟩ := ih _ hstep (by omega)
      refine ⟨ls', ?_, hG, ?_, ?_⟩
      · rw [padTreeLoop, if_pos hlt, hr]
        simpa using hEq
      · rw [hL, hlen2]
        omega
      · intro h2
        rw [hHd (by omega)]
        rcases ls with _ | ⟨a, _ | ⟨b, u⟩⟩
        · simp at hpos
        · simp at h2
        · rfl
    · exact ⟨ls, by rw [padTreeLoop, if_neg hlt], hg, by omega, fun _ => rfl⟩

/-- The full behaviour of `generateMerkleTree` on nonempty input: it
succeeds, the layers satisfy the invariant, layer 0 is the evened input
(which, in the source, is the caller's mutated array), the layer count is
the natural count padded up to `TREELEVELS`, and the final layer is the
singleton root. -/
theorem generateMerkleTree_spec (H : Nat → Nat → Nat) (L : List Element) (hL : L ≠ []) :
    ∃ layers root, generateMerkleTree H L = some (layers, root) ∧
      GoodLayers H layers ∧ layers.headD [] = ensureEven L ∧
      layers.length = max (generateMerkleRoot H L).length TREELEVELS ∧
      layers.getLastD [] = [root] := by
  obtain ⟨hg, hh, h2⟩ := generateMerkleRootAux_spec H L.length L hL le_rfl
  obtain ⟨ls', hEq, hG, hLen, hHead⟩ :=
    padTreeLoop_spec TREELEVELS (generateMerkleRoot H L) hg (by omega)
  obtain ⟨r, hr⟩ := hG.getLast_singleton
  refine ⟨ls', r, ?_, hG, ?_, hLen, hr⟩
  · rw [generateMerkleTree, padTree, hEq]
    show (match (ls'.getLastD []).head? with
          | none => none
          | some root => some (ls', root)) = some (ls', r)
    rw [hr]
    rfl
  · rw [hHead h2]
    exact hh

/-! ## Proof generation and verification -/

/-- A negative JavaScript index reads `undefined`. -/
theorem getAtInt_neg (l : List Element) (i : Int) (h : i < 0) : getAtInt l i = none := by
  rw [getAtInt, if_pos h]

/-- In-bounds JavaScript indexing with a natural index. -/
theorem getAtInt_coe_lt (l : List Element) (m : Nat) (h : m < l.length) :
    getAtInt l (m : Int) = some (l.getD m 0) := by
  unfold getAtInt
  rw [if_neg (by omega : ¬ ((m : Int) < 0))]
  simp [List.getElem?_eq_getElem h, List.getD_eq_getElem l 0 h]

/-- Floored division of a cast natural matches natural division. -/
theorem fdiv_coe_two (m : Nat) : (m : Int).fdiv 2 = ((m / 2 : Nat) : Int) := by
  rw [Int.fdiv_eq_tdiv (by omega) (by omega), Int.natCast_div]
  rfl

/-- A present element has a first index, in bounds and reading back the
element. -/
theorem findIndexNat_mem : ∀ (l : List Element) (x : Element), x ∈ l →
    ∃ i, findIndexNat x l = some i ∧ i < l.length ∧ l.getD i 0 = x
  | [], x, h => absurd h (by simp)
  | a :: t, x, h => by
    by_cases hax : a = x
    · exact ⟨0, by simp [findIndexNat, hax], by simp, by simp [hax]⟩
    · have hxt : x ∈ t := by
        rcases List.mem_cons.mp h with h1 | h1
        · exact absurd h1.symm hax
        · exact h1
      obtain ⟨i, hf, hlt, hg⟩ := findIndexNat_mem t x hxt
      exact ⟨i + 1, by simp [findIndexNat, hax, hf], by simpa using Nat.succ_lt_succ hlt,
        by simpa using hg⟩

/-- The sibling loop emits one entry per non-final layer. -/
theorem siblingPath_length : ∀ (ls : List Layer) (i : Int),
    (siblingPath ls i).length = ls.length - 1
  | [], _ => rfl
  | [_], _ => rfl
  | _ :: b :: rest, i => by
    simp only [siblingPath, List.length_cons, siblingPath_length (b :: rest) (i.fdiv 2)]
    omega

/-- The verifier's fold over a generated sibling path climbs the good layer
list: starting from the entry at index `i` of layer 0, it lands on the head
of the final layer. -/
theorem foldNodesAcc_siblingPath {H : Nat → Nat → Nat} {ls : List Layer}
    (h : GoodLayers H ls) :
    ∀ i : Nat, i < (ls.headD []).length →
      foldNodesAcc H (some ((ls.headD []).getD i 0)) (siblingPath ls (i : Int)) =
        some ((ls.getLastD []).getD 0 0) := by
  induction h with
  | last l hl =>
    intro i hi
    simp only [List.headD_cons] at hi
    have hi0 : i = 0 := by omega
    subst hi0
    simp [siblingPath, foldNodesAcc]
  | step l next rest hs htail ih =>
    intro i hi
    obtain ⟨heven, hpos, hle, hpair⟩ := hs
    simp only [List.headD_cons] at hi
    have hlast : (l :: next :: rest).getLastD [] = (next :: rest).getLastD [] :=
      getLastD_cons_ne _ _ _ (by simp)
    have hfd : ((i : Int)).fdiv 2 = ((i / 2 : Nat) : Int) := fdiv_coe_two i
    have hnext : i / 2 < next.length := by
      have : i / 2 < l.length / 2 := by omega
      omega
    have hih := ih (i / 2) (by simpa using hnext)
    simp only [List.headD_cons] at hih
    by_cases hpar : i % 2 = 0
    · have hparZ : ((i : Int) % 2 = 0) := by omega
      have hsib : i + 1 < l.length := by omega
      have hcast : ((i : Int) + 1) = (((i + 1 : Nat)) : Int) := by omega
      rw [siblingPath, if_pos hparZ, if_pos hparZ, hcast,
        getAtInt_coe_lt l (i + 1) hsib, hfd]
      simp only [foldNodesAcc, if_true]
      have ht : i / 2 < l.length / 2 := by omega
      have hcomb := hpair (i / 2) ht
      rw [show 2 * (i / 2) + 1 = i + 1 by omega, show 2 * (i / 2) = i by omega] at hcomb
      simp only [List.headD_cons]
      rw [← hcomb, hlast]
      exact hih
    · have hparZ : ¬ ((i : Int) % 2 = 0) := by omega
      have h1i : 1 ≤ i := by omega
      have hsib : i - 1 < l.length := by omega
      have hcast : ((i : Int) - 1) = (((i - 1 : Nat)) : Int) := by omega
      rw [siblingPath, if_neg hparZ, if_neg hparZ, hcast,
        getAtInt_coe_lt l (i - 1) hsib, hfd]
      simp only [foldNodesAcc]
      have hdir : ¬ (HashDirection.LEFT = HashDirection.RIGHT) := by decide
      rw [if_neg hdir]
      have ht : i / 2 < l.length / 2 := by omega
      have hcomb := hpair (i / 2) ht
      rw [show 2 * (i / 2) + 1 = i by omega, show 2 * (i / 2) = i - 1 by omega] at hcomb
      simp only [List.headD_cons]
      rw [← hcomb, hlast]
      exact hih

/-! ## Claim theorems -/

/-- C1 (amended): for every nonempty leaf sequence `L` and every nonzero
leaf `x` occurring in `L`, reconstructing the root from the generated proof
equals the root of the built tree.  (The restriction to nonzero `x` is
forced by the `!leaf` guard: see the counterexample.) -/
theorem roundtrip_membership (H : Nat → Nat → Nat) (L : List Element) (x : Element)
    (hL : L ≠ []) (hx : x ∈ L) (hx0 : x ≠ 0) :
    (generateMerkleProof H x L none).bind (getMerkleRootFromMerkleProof H) =
      (generateMerkleTree H L).map Prod.snd := by
  obtain ⟨layers, root, hEq, hG, hHead, hLen, hLast⟩ := generateMerkleTree_spec H L hL
  have hguard : ¬ (x = 0 ∨ L.isEmpty = true) := by
    simp [hx0, hL]
  have hmem : x ∈ layers.headD [] := by
    rw [hHead]; exact mem_ensureEven L x hx
  obtain ⟨i, hf, hlt, hget⟩ := findIndexNat_mem _ x hmem
  have hjs : jsFindIndex x (layers.headD []) = (i : Int) := by
    rw [jsFindIndex, hf]
  simp only [generateMerkleProof, if_neg hguard, hEq, Option.map_some', Option.bind_some]
  simp only [getMerkleRootFromMerkleProof, hjs]
  rw [show (some x) = some ((layers.headD []).getD i 0) by rw [hget]]
  show foldNodesAcc H (some ((layers.headD []).getD i 0)) (siblingPath layers ((i : Nat) : Int)) =
    some root
  rw [foldNodesAcc_siblingPath hG i hlt, hLast]
  rfl

/-- C1 witness: the round-trip theorem applied at a concrete input. -/
theorem roundtrip_membership_witness :
    ([1, 2] : List Element) ≠ [] ∧ (2 : Element) ∈ ([1, 2] : List Element) ∧
      (2 : Element) ≠ 0 ∧
      (generateMerkleProof stubHash 2 [1, 2] none).bind
          (getMerkleRootFromMerkleProof stubHash) =
        (generateMerkleTree stubHash [1, 2]).map Prod.snd :=
  ⟨by decide, by decide, by decide,
    roundtrip_membership stubHash [1, 2] 2 (by decide) (by decide) (by decide)⟩

/-- C1 counterexample: the claim as stated fails for the leaf `0`, which
occurs in `[0, 1]` but is rejected by the `!leaf` guard, so no proof is
produced while the tree has a root. -/
theorem roundtrip_membership_counterexample :
    ¬ ((generateMerkleProof stubHash 0 [0, 1] none).bind
          (getMerkleRootFromMerkleProof stubHash) =
        (generateMerkleTree stubHash [0, 1]).map Prod.snd) := by
  decide

/-- Corroborating evaluation for C2 at the failing input: `findIndex`
yields `-1`, every sibling read is out of bounds, and a 20-entry proof of
`undefined` hashes is returned instead of a NotFound failure. -/
theorem notfound_unguarded_eval :
    generateMerkleProof stubHash 5 [1, 2] none =
      some ({ hash := some 5, direction := HashDirection.RIGHT } ::
        List.replicate 19 { hash := none, direction := HashDirection.LEFT }) := by
  decide

/-- The default-filling last element of a nonempty list is one of its
elements. -/
theorem getLastD_mem : ∀ (l : List Element), l ≠ [] → ∀ d : Element, l.getLastD d ∈ l
  | [], h, _ => absurd rfl h
  | [a], _, d => by simp
  | a :: b :: t, _, d => by
    rw [getLastD_cons_ne a (b :: t) d (by simp)]
    exact List.mem_cons_of_mem a (getLastD_mem (b :: t) (by simp) d)

/-- `ensureEven` introduces no new elements: its only push duplicates the
last element of the input. -/
theorem mem_of_ensureEven (l : List Element) (x : Element) (hl : l ≠ [])
    (h : x ∈ ensureEven l) : x ∈ l := by
  rw [ensureEven] at h
  split at h
  · rcases List.mem_append.mp h with h1 | h1
    · exact h1
    · rw [List.mem_singleton] at h1
      rw [h1]
      exact getLastD_mem l hl 0
  · exact h

/-- An absent element has no first index. -/
theorem findIndexNat_not_mem : ∀ (l : List Element) (x : Element), x ∉ l →
    findIndexNat x l = none
  | [], _, _ => rfl
  | a :: t, x, h => by
    have hax : ¬ a = x := fun hc => h (hc ▸ List.mem_cons_self a t)
    rw [findIndexNat, if_neg hax, findIndexNat_not_mem t x (fun hc => h (List.mem_cons_of_mem a hc))]
    rfl

/-- Once the running index is the JavaScript `-1`, it stays `-1`
(`Math.floor(-1/2) = -1`), so every emitted entry has an out-of-bounds
(`undefined`) sibling hash and direction LEFT (`-1 % 2` is nonzero). -/
theorem siblingPath_neg_one : ∀ ls : List Layer,
    siblingPath ls (-1) =
      List.replicate (ls.length - 1) (ProofNode.mk none HashDirection.LEFT)
  | [] => rfl
  | [_] => rfl
  | l :: next :: rest => by
    rw [siblingPath, if_neg (by decide : ¬ ((-1 : Int) % 2 = 0)),
      if_neg (by decide : ¬ ((-1 : Int) % 2 = 0)),
      getAtInt_neg l ((-1 : Int) - 1) (by decide),
      show (-1 : Int).fdiv 2 = -1 by decide,
      siblingPath_neg_one (next :: rest)]
    have hlen : (l :: next :: rest).length - 1 = ((next :: rest).length - 1) + 1 := by
      simp only [List.length_cons]
      omega
    rw [hlen, List.replicate_succ]

/-- A leaf absent from layer 0 gets `findIndex`'s `-1`, whose remainder is
nonzero, so the stored leaf-entry direction is RIGHT. -/
theorem getLeafNodeDirection_not_mem (x : Element) (layers : List Layer)
    (h : x ∉ layers.headD []) :
    getLeafNodeDirectionInMerkleTree x layers = HashDirection.RIGHT := by
  rw [getLeafNodeDirectionInMerkleTree, jsFindIndex, findIndexNat_not_mem _ x h]
  rw [if_neg (by decide : ¬ ((-1 : Int) % 2 = 0))]

/-- C2: the missing-leaf case is unguarded.  For every hash, every nonempty
leaf sequence `L` and every nonzero element `x` absent from `L`,
`generateMerkleProof(x, L, null)` does not fail with a NotFound error: it
returns a proof whose leaf entry carries direction RIGHT (from `-1 % 2`)
and whose every sibling entry — one per non-final tree layer — holds an
`undefined` hash read at a negative index, with direction LEFT. -/
theorem notfound_unguarded (H : Nat → Nat → Nat) (L : List Element) (x : Element)
    (hL : L ≠ []) (hx : x ∉ L) (hx0 : x ≠ 0) :
    ∃ layers root, generateMerkleTree H L = some (layers, root) ∧
      generateMerkleProof H x L none =
        some (ProofNode.mk (some x) HashDirection.RIGHT ::
          List.replicate (layers.length - 1) (ProofNode.mk none HashDirection.LEFT)) := by
  obtain ⟨layers, root, hEq, hG, hHead, hLen, hLast⟩ := generateMerkleTree_spec H L hL
  have hguard : ¬ (x = 0 ∨ L.isEmpty = true) := by
    simp [hx0, hL]
  have hxe : x ∉ layers.headD [] := by
    rw [hHead]
    exact fun hmem => hx (mem_of_ensureEven L x hL hmem)
  have hjs : jsFindIndex x (layers.headD []) = -1 := by
    rw [jsFindIndex, findIndexNat_not_mem _ x hxe]
  refine ⟨layers, root, hEq, ?_⟩
  simp only [generateMerkleProof, if_neg hguard, hEq, Option.map_some']
  rw [hjs, siblingPath_neg_one, getLeafNodeDirection_not_mem x layers hxe]

/-- C2 witness: the unguarded-NotFound theorem applied at the failing
input (leaf `5`, leaves `[1, 2]`, no cached tree). -/
theorem notfound_unguarded_witness :
    ([1, 2] : List Element) ≠ [] ∧ (5 : Element) ∉ ([1, 2] : List Element) ∧
      (5 : Element) ≠ 0 ∧
      ∃ layers root, generateMerkleTree stubHash [1, 2] = some (layers, root) ∧
        generateMerkleProof stubHash 5 [1, 2] none =
          some (ProofNode.mk (some 5) HashDirection.RIGHT ::
            List.replicate (layers.length - 1) (ProofNode.mk none HashDirection.LEFT)) :=
  ⟨by decide, by decide, by decide,
    notfound_unguarded stubHash [1, 2] 5 (by decide) (by decide) (by decide)⟩

/-- C3 (amended): for every nonempty leaf sequence of at most `2^19` leaves
the built tree has exactly `TREELEVELS = 20` layers, the last being the
singleton root.  (With more than `2^19` leaves the natural reduction alone
already exceeds 20 layers and `padTree` never truncates: see the
counterexample.) -/
theorem fixed_depth_tree (H : Nat → Nat → Nat) (L : List Element)
    (hL : L ≠ []) (hsz : L.length ≤ 2 ^ 19) :
    ∃ layers root, generateMerkleTree H L = some (layers, root) ∧
      layers.length = TREELEVELS ∧ layers.getLastD [] = [root] := by
  obtain ⟨layers, root, hEq, hG, hHead, hLen, hLast⟩ := generateMerkleTree_spec H L hL
  have h1 : 1 ≤ L.length := List.length_pos.mpr hL
  have hub := generateMerkleRootAux_length_le H L.length L 19 h1 hsz (by omega) le_rfl
  refine ⟨layers, root, hEq, ?_, hLast⟩
  rw [hLen]
  refine Nat.max_eq_right ?_
  unfold generateMerkleRoot TREELEVELS
  omega

/-- C3 witness: the fixed-depth theorem applied at a concrete input. -/
theorem fixed_depth_tree_witness :
    ([1, 2] : List Element) ≠ [] ∧ ([1, 2] : List Element).length ≤ 2 ^ 19 ∧
      ∃ layers root, generateMerkleTree stubHash [1, 2] = some (layers, root) ∧
        layers.length = TREELEVELS ∧ layers.getLastD [] = [root] :=
  ⟨by decide, by decide, fixed_depth_tree stubHash [1, 2] (by decide) (by decide)⟩

/-- The `2^19 + 1`-element leaf list used by the depth counterexamples is
nonempty. -/
theorem replicate_big_ne_nil : (List.replicate 524289 (1 : Element)) ≠ [] := by
  have h : (List.replicate 524289 (1 : Element)).length = 524289 :=
    List.length_replicate _ _
  intro hcon
  rw [hcon] at h
  simp at h

/-- The counterexample leaf list has one more than `2^19` elements. -/
theorem replicate_big_length : 2 ^ 19 + 1 ≤ (List.replicate 524289 (1 : Element)).length := by
  rw [List.length_replicate]
  norm_num

/-- C3 counterexample: with `2^19 + 1 = 524289` leaves the natural
reduction needs 21 layers, so the built tree does not have 20 layers. -/
theorem fixed_depth_tree_counterexample :
    (generateMerkleTree stubHash (List.replicate 524289 1)).map (fun p => p.1.length) ≠
      some TREELEVELS := by
  obtain ⟨layers, root, hEq, hG, hHead, hLen, hLast⟩ :=
    generateMerkleTree_spec stubHash (List.replicate 524289 1) replicate_big_ne_nil
  have hlb := generateMerkleRootAux_length_ge stubHash (List.replicate 524289 1).length
    (List.replicate 524289 1) 19 replicate_big_length le_rfl
  have hnat : 21 ≤ (generateMerkleRoot stubHash (List.replicate 524289 1)).length := by
    unfold generateMerkleRoot
    omega
  rw [hEq]
  simp only [Option.map_some', ne_eq, Option.some.injEq]
  rw [hLen, Nat.max_eq_left (by unfold TREELEVELS; omega)]
  unfold TREELEVELS
  omega

/-- C4 (amended): for every nonempty leaf sequence of at most `2^19` leaves
and every nonzero leaf `x` in it, the generated proof has exactly
`TREELEVELS = 20` entries.  (Nonzero is forced by the `!leaf` guard; the
leaf-count bound is forced because deeper natural trees yield longer
proofs.) -/
theorem fixed_proof_length (H : Nat → Nat → Nat) (L : List Element) (x : Element)
    (hL : L ≠ []) (_hx : x ∈ L) (hx0 : x ≠ 0) (hsz : L.length ≤ 2 ^ 19) :
    ∃ p, generateMerkleProof H x L none = some p ∧ p.length = TREELEVELS := by
  obtain ⟨layers, root, hEq, hG, hHead, hLen, hLast⟩ := generateMerkleTree_spec H L hL
  have h1 : 1 ≤ L.length := List.length_pos.mpr hL
  have hub := generateMerkleRootAux_length_le H L.length L 19 h1 hsz (by omega) le_rfl
  have h20 : layers.length = TREELEVELS := by
    rw [hLen]
    refine Nat.max_eq_right ?_
    unfold generateMerkleRoot TREELEVELS
    omega
  have hguard : ¬ (x = 0 ∨ L.isEmpty = true) := by simp [hx0, hL]
  simp only [generateMerkleProof, if_neg hguard, hEq, Option.map_some']
  refine ⟨_, rfl, ?_⟩
  simp only [List.length_cons, siblingPath_length]
  rw [show TREELEVELS = 20 from rfl] at h20 ⊢
  omega

/-- C4 witness: the fixed-proof-length theorem applied at a concrete
input. -/
theorem fixed_proof_length_witness :
    ([1, 2] : List Element) ≠ [] ∧ (1 : Element) ∈ ([1, 2] : List Element) ∧
      (1 : Element) ≠ 0 ∧ ([1, 2] : List Element).length ≤ 2 ^ 19 ∧
      ∃ p, generateMerkleProof stubHash 1 [1, 2] none = some p ∧ p.length = TREELEVELS :=
  ⟨by decide, by decide, by decide, by decide,
    fixed_proof_length stubHash [1, 2] 1 (by decide) (by decide) (by decide) (by decide)⟩

/-- C4 counterexample: with `2^19 + 1 = 524289` leaves the tree has 21
layers and the proof for a present nonzero leaf has 21 entries, not 20. -/
theorem fixed_proof_length_counterexample :
    (generateMerkleProof stubHash 1 (List.replicate 524289 1) none).map List.length ≠
      some TREELEVELS := by
  obtain ⟨layers, root, hEq, hG, hHead, hLen, hLast⟩ :=
    generateMerkleTree_spec stubHash (List.replicate 524289 1) replicate_big_ne_nil
  have hlb := generateMerkleRootAux_length_ge stubHash (List.replicate 524289 1).length
    (List.replicate 524289 1) 19 replicate_big_length le_rfl
  have hnat : 21 ≤ (generateMerkleRoot stubHash (List.replicate 524289 1)).length := by
    unfold generateMerkleRoot
    omega
  have hlay : 21 ≤ layers.length := by
    rw [hLen, Nat.max_eq_left (by unfold TREELEVELS; omega)]
    exact hnat
  have hguard : ¬ ((1 : Element) = 0 ∨ (List.replicate 524289 (1 : Element)).isEmpty = true) := by
    intro hcon
    rcases hcon with h | h
    · exact absurd h (by norm_num)
    · rw [List.isEmpty_iff] at h
      exact replicate_big_ne_nil h
  rw [generateMerkleProof, if_neg hguard, hEq]
  show ¬ ((some (ProofNode.mk (some 1) (getLeafNodeDirectionInMerkleTree 1 layers) ::
      siblingPath layers (jsFindIndex 1 (layers.headD [])))).map List.length =
        some TREELEVELS)
  simp only [Option.map_some', List.length_cons, siblingPath_length, ne_eq,
    Option.some.injEq]
  rw [show TREELEVELS = 20 from rfl]
  omega

/-- C5 (amended): building from an empty leaf sequence fails for every
hash function: `padTree` reads `layers[0][0]` of the empty leaf layer
(`undefined` in the source) and hashing it throws; no degenerate tree
value is returned. -/
theorem empty_tree_fails (H : Nat → Nat → Nat) : generateMerkleTree H [] = none := rfl

/-- C5 counterexample: at a concrete hash, `generateMerkleTree([])` fails
rather than returning a degenerate empty tree, refuting the claimed
non-failing result value. -/
theorem empty_tree_counterexample : generateMerkleTree stubHash [] = none := by
  decide

/-- The verifier loop with a defined accumulator agrees with the plain left
fold as long as every entry hash is defined. -/
theorem foldNodesAcc_eq_foldl (H : Nat → Nat → Nat) :
    ∀ (rest : List ProofNode) (a : Element), (∀ n ∈ rest, n.hash ≠ none) →
      foldNodesAcc H (some a) rest =
        some (rest.foldl (fun acc node =>
          if node.direction = HashDirection.RIGHT then H acc (node.hash.getD 0)
          else H (node.hash.getD 0) acc) a)
  | [], _, _ => rfl
  | n :: rest, a, hdef => by
    obtain ⟨h, hh⟩ : ∃ h, n.hash = some h := by
      cases hn : n.hash with
      | none => exact absurd hn (hdef n (by simp))
      | some v => exact ⟨v, rfl⟩
    simp only [foldNodesAcc, hh, List.foldl_cons, Option.getD_some]
    exact foldNodesAcc_eq_foldl H rest _ (fun m hm => hdef m (List.mem_cons_of_mem n hm))

/-- C6: for every proof of length at least one (whose entry hashes are
values, as the data model prescribes), the verifier computes exactly the
claim's left fold. -/
theorem verifier_is_left_fold (H : Nat → Nat → Nat) (p : List ProofNode)
    (hne : p ≠ []) (hdef : ∀ n ∈ p, n.hash ≠ none) :
    getMerkleRootFromMerkleProof H p = some (specVerifierFold H p) := by
  cases p with
  | nil => exact absurd rfl hne
  | cons first rest =>
    obtain ⟨a, ha⟩ : ∃ a, first.hash = some a := by
      cases hn : first.hash with
      | none => exact absurd hn (hdef first (by simp))
      | some v => exact ⟨v, rfl⟩
    simp only [getMerkleRootFromMerkleProof, specVerifierFold, List.tail_cons,
      List.headD_cons, ha, Option.getD_some]
    exact foldNodesAcc_eq_foldl H rest a (fun m hm => hdef m (List.mem_cons_of_mem first hm))

/-- C6 witness: the fold equivalence applied to a concrete three-entry
proof. -/
theorem verifier_is_left_fold_witness :
    ([ProofNode.mk (some 3) 0, ProofNode.mk (some 5) 1, ProofNode.mk (some 7) 0] ≠
        ([] : List ProofNode)) ∧
      (∀ n ∈ [ProofNode.mk (some 3) 0, ProofNode.mk (some 5) 1, ProofNode.mk (some 7) 0],
        n.hash ≠ none) ∧
      getMerkleRootFromMerkleProof stubHash
          [ProofNode.mk (some 3) 0, ProofNode.mk (some 5) 1, ProofNode.mk (some 7) 0] =
        some (specVerifierFold stubHash
          [ProofNode.mk (some 3) 0, ProofNode.mk (some 5) 1, ProofNode.mk (some 7) 0]) :=
  ⟨by decide, by decide, verifier_is_left_fold stubHash _ (by decide) (by decide)⟩

/-- C7 (amended): layer 0 of the built tree — in the source the caller's
`leaves` array itself, mutated in place — equals `ensureEven L`: the input
is unchanged for even length but gains a duplicate of its last element for
odd length. -/
theorem input_borrow_mutation (H : Nat → Nat → Nat) (L : List Element) (hL : L ≠ []) :
    (generateMerkleTree H L).map (fun p => p.1.headD []) = some (ensureEven L) ∧
      (L.length % 2 = 0 → ensureEven L = L) ∧
      (L.length % 2 ≠ 0 → ensureEven L = L ++ [L.getLastD 0]) := by
  obtain ⟨layers, root, hEq, hG, hHead, hLen, hLast⟩ := generateMerkleTree_spec H L hL
  refine ⟨?_, ?_, ?_⟩
  · rw [hEq, Option.map_some']
    exact congrArg some hHead
  · intro h
    simp [ensureEven, h]
  · intro h
    rw [ensureEven, if_pos h]

/-- C7 witness: the mutation description applied at a concrete even-length
input. -/
theorem input_borrow_mutation_witness :
    ([1, 2] : List Element) ≠ [] ∧
      ((generateMerkleTree stubHash [1, 2]).map (fun p => p.1.headD []) =
          some (ensureEven [1, 2]) ∧
        (([1, 2] : List Element).length % 2 = 0 → ensureEven [1, 2] = [1, 2]) ∧
        (([1, 2] : List Element).length % 2 ≠ 0 →
          ensureEven [1, 2] = [1, 2] ++ [([1, 2] : List Element).getLastD 0])) :=
  ⟨by decide, input_borrow_mutation stubHash [1, 2] (by decide)⟩

/-- C7 counterexample: after building from the odd-length `[1, 2, 3]`, the
caller's array (layer 0 of the tree) holds `[1, 2, 3, 3]`, not the original
`[1, 2, 3]`. -/
theorem input_borrow_mutation_counterexample :
    (generateMerkleTree stubHash [1, 2, 3]).map (fun p => p.1.headD []) =
        some [1, 2, 3, 3] ∧
      ((some [1, 2, 3, 3] : Option (List Element)) ≠ some [1, 2, 3]) := by
  decide

/-- C8: the verifier never consults the direction stored in entry 0 —
replacing it with any value leaves the reconstructed root unchanged. -/
theorem leaf_direction_ignored (H : Nat → Nat → Nat) (p : List ProofNode) (d : Nat) :
    getMerkleRootFromMerkleProof H (replaceLeafDirection d p) =
      getMerkleRootFromMerkleProof H p := by
  cases p <;> rfl

/-- C9: building from `[a, b, c]` first duplicates `c` (the evened layer is
`[a, b, c, c]`), and the resulting root coincides with the root built from
`[a, b, c, c]`. -/
theorem odd_padding_determinism (H : Nat → Nat → Nat) (a b c : Element) :
    ensureEven [a, b, c] = [a, b, c, c] ∧
      (generateMerkleTree H [a, b, c]).map Prod.snd =
        (generateMerkleTree H [a, b, c, c]).map Prod.snd := by
  have he : ensureEven [a, b, c] = [a, b, c, c] := by simp [ensureEven]
  refine ⟨he, ?_⟩
  have h : generateMerkleRoot H [a, b, c] = generateMerkleRoot H [a, b, c, c] := by
    rw [generateMerkleRoot_ensureEven H [a, b, c] (by simp), he]
  rw [generateMerkleTree, generateMerkleTree, h]

/-- C10: a zero leaf is falsy for the `!leaf` guard, so for every leaf
sequence containing the valid field element `0` and every cached tree, the
proof request for `0` returns `null` instead of a membership proof. -/
theorem zero_leaf_rejected (H : Nat → Nat → Nat) (L : List Element)
    (t : Option (List Layer)) (_h : 0 ∈ L) :
    generateMerkleProof H 0 L t = none := by
  simp [generateMerkleProof]

/-- C10 witness: the zero-leaf rejection applied at a concrete input. -/
theorem zero_leaf_rejected_witness :
    (0 : Element) ∈ ([0] : List Element) ∧
      generateMerkleProof stubHash 0 [0] none = none :=
  ⟨by decide, zero_leaf_rejected stubHash [0] none (by decide)⟩
